import Mathlib

/-!
Shallow embedding of the devinsight core modules.

Source: the file-scanner module (`scanDirectory`, Node `fs.readdir` /
`fs.stat` based recursive traversal with an exclusion set and a depth
limit) and the todo-scanner module (`scanForTodos`,
`getFilesWithMostTodos`), translated from the JavaScript source.

Modelling choices:
* Filesystem paths are lists of components; `path.join(dir, name)` is
  `dir ++ [name]` (names returned by `readdir` never contain a
  separator).
* The filesystem visible to one `scanDirectory` call is an inductive
  tree `FSNode`; a directory listing is encoded as a cons-list of
  (name, child) entries so that all recursion is structural.  `readdir`
  failures are a `dirErr e` node with the Node error code `e`;
  `fs.stat` failures on a file are `file none`.
* File contents handed to the tagger are part of the input record
  (`InFile.content`), an `Except` mirroring the `fs.readFile` outcome.
* The three tag regexes (`//`, `/*...*/`, `#` comment shapes, `gi`
  flags) are hand-compiled to a backtracking matcher whose alternative
  order, greediness (`\s*`, `(.+)`) and laziness (`(.+?)`) follow the
  JavaScript regex search order.  `\s` is the JS whitespace class, `.`
  excludes the JS line terminators, and the `i` flag is ASCII case
  folding (the tag keywords are ASCII; JS canonicalisation never folds
  a non-ASCII character onto an ASCII one for non-unicode regexes).
* `String.prototype.matchAll` restarts from the end of each match, so
  the global scan is recursion on the unconsumed suffix; matches are
  never empty, hence no `lastIndex` bump is needed.  The fuel argument
  of `jsMatchAllF` is an implementation device; `l.length` fuel is
  always sufficient (proved below) because every step consumes at
  least one character.
* `Array.prototype.sort` is stable with a consistent comparator, and a
  stable sort result is unique, so it is embedded as a stable insertion
  sort; JS object keys (here: file names, never array indices)
  enumerate in insertion order with in-place overwrite, embedded as an
  association list with positional `upsert`.
-/

namespace DevInsight

/-- Node error codes distinguished by the scanner's catch clause:
`EACCES`, `EPERM`, `ENOENT`, and anything else. -/
inductive ECode where
  | eacces
  | eperm
  | enoent
  | eother
  deriving DecidableEq

/-- A filesystem node.  Directory listings are spread over `dirNil` /
`dirCons` so that one directory's entries and a child subtree are the
same inductive type and all recursion is structural. -/
inductive FSNode where
  /-- regular file; `stat` is `some size` on success, `none` when `fs.stat` fails -/
  | file (stat : Option Nat)
  /-- an entry that is neither a regular file nor a directory (symlink, socket, ...) -/
  | other
  /-- a directory whose `fs.readdir` fails with error code `e` -/
  | dirErr (e : ECode)
  /-- a directory listing with no further entries -/
  | dirNil
  /-- a directory listing: first entry (`name`, `child`), then the remaining entries -/
  | dirCons (name : String) (child : FSNode) (rest : FSNode)
  deriving DecidableEq

/-- Embeds `entry.isDirectory()` for a child node. -/
def FSNode.isDir : FSNode → Bool
  | .dirErr _ => true
  | .dirNil => true
  | .dirCons _ _ _ => true
  | _ => false

/-- One discovered file, as pushed by `scanDirectory`:
`{ path: fullPath, name: entry.name, size: stats.size, extension: path.extname(entry.name) }`. -/
structure FileEntry where
  path : List String
  name : String
  size : Nat
  extension : List Char
  deriving DecidableEq

/-- The accumulator/result of `scanDirectory`: `{ files, directories, totalSize }`. -/
structure ScanResult where
  files : List FileEntry
  directories : List (List String)
  totalSize : Nat
  deriving DecidableEq

/-- State of the scanning loop of Node `path.extname`:
(`startDot`, `end`, `preDotState`), with `none` for the sentinel `-1`
of the two indices.  The loop walks the name from its last character
to its first; `i` is the index of the current character. -/
def extStep (i : Nat) (c : Char) : Option Nat × Option Nat × Int → Option Nat × Option Nat × Int
  | (startDot, endIdx, pre) =>
    let endIdx' := match endIdx with
      | none => some (i + 1)
      | some e => some e
    let startDot' := if c = '.' then
        (match startDot with
         | none => some i
         | some j => some j)
      else startDot
    let pre' : Int := if c = '.' then
        (match startDot with
         | none => pre
         | some _ => if pre ≠ 1 then 1 else pre)
      else
        (match startDot with
         | none => pre
         | some _ => -1)
    (startDot', endIdx', pre')

/-- The loop of Node `path.extname`, one `extStep` per character,
walking the reversed name with `i` the index of the current character. -/
def extGo : Nat → List Char → Option Nat × Option Nat × Int → Option Nat × Option Nat × Int
  | _, [], st => st
  | i, c :: rest, st => extGo (i - 1) rest (extStep i c st)

/-- Node `path.posix.extname`, restricted to names that contain no path
separator (as returned by `readdir`), so `startPart = 0` and the slash
branch of the loop never fires. -/
def extname (n : List Char) : List Char :=
  match extGo (n.length - 1) n.reverse (none, none, 0) with
  | (some sd, some e, pre) =>
    if pre = 0 then []
    else if pre = 1 ∧ sd = e - 1 ∧ sd = 0 + 1 then []
    else (n.drop sd).take (e - sd)
  | _ => []

/-- Embeds `currentDepth < maxDepth`; `none` is the default `Infinity`. -/
def depthLt (cur : Nat) : Option Nat → Bool
  | none => true
  | some m => cur < m

/-- The default `excludeDirs` option of `scanDirectory`. -/
def defaultExcludeDirs : List String :=
  ["node_modules", ".git", "dist", "build", ".next", "coverage"]

/-- The freshly initialised `results` object of `scanDirectory`. -/
def emptyScan : ScanResult := ⟨[], [], 0⟩

/-- Embeds `scanDirectory(dirPath, options)` on the subtree `node`.

The JS `try`/`catch` swallows `EACCES`/`EPERM` (returning the results
accumulated so far, which at the moment `readdir` can throw are none)
and rethrows anything else; a rethrown error from a recursive call is
neither `EACCES` nor `EPERM` (children swallow their own), so the
catch chain is plain `Except` propagation.  Scanning a non-directory
is a `readdir` failure with a non-access code (`ENOTDIR`), embedded as
`eother`. -/
def scanDirectory (dirPath : List String) (excludeDirs : List String)
    (maxDepth : Option Nat) (currentDepth : Nat) : FSNode → Except ECode ScanResult
  | .file _ => .error .eother
  | .other => .error .eother
  | .dirErr e => if e = .eacces ∨ e = .eperm then .ok emptyScan else .error e
  | .dirNil => .ok emptyScan
  | .dirCons name child rest =>
    let full := dirPath ++ [name]
    let head : Except ECode ScanResult :=
      if child.isDir then
        if name ∈ excludeDirs then .ok emptyScan
        else if depthLt currentDepth maxDepth then
          match scanDirectory full excludeDirs maxDepth (currentDepth + 1) child with
          | .ok sub => .ok ⟨sub.files, full :: sub.directories, sub.totalSize⟩
          | .error e => .error e
        else .ok ⟨[], [full], 0⟩
      else
        match child with
        | .file (some size) => .ok ⟨[⟨full, name, size, extname name.toList⟩], [], size⟩
        | _ => .ok emptyScan
    match head with
    | .error e => .error e
    | .ok r1 =>
      match scanDirectory dirPath excludeDirs maxDepth currentDepth rest with
      | .error e => .error e
      | .ok r2 => .ok ⟨r1.files ++ r2.files, r1.directories ++ r2.directories,
          r1.totalSize + r2.totalSize⟩

/-- The contribution of one directory entry (`name`, `child`) to the
enclosing `scanDirectory` call: definitionally the `head` term of the
`dirCons` branch, split out so proofs can case on it. -/
def scanEntry (dirPath : List String) (excludeDirs : List String) (maxDepth : Option Nat)
    (currentDepth : Nat) (name : String) (child : FSNode) : Except ECode ScanResult :=
  if child.isDir then
    if name ∈ excludeDirs then .ok emptyScan
    else if depthLt currentDepth maxDepth then
      match scanDirectory (dirPath ++ [name]) excludeDirs maxDepth (currentDepth + 1) child with
      | .ok sub => .ok ⟨sub.files, (dirPath ++ [name]) :: sub.directories, sub.totalSize⟩
      | .error e => .error e
    else .ok ⟨[], [dirPath ++ [name]], 0⟩
  else
    match child with
    | .file (some size) =>
      .ok ⟨[⟨dirPath ++ [name], name, size, extname name.toList⟩], [], size⟩
    | _ => .ok emptyScan

/-- The immediate regular-file entries of a listing that `stat`
successfully, in listing order, as `FileEntry` records rooted at
`dirPath`. -/
def immediateFiles (dirPath : List String) : FSNode → List FileEntry
  | .dirCons name (.file (some size)) rest =>
    ⟨dirPath ++ [name], name, size, extname name.toList⟩ :: immediateFiles dirPath rest
  | .dirCons _ _ rest => immediateFiles dirPath rest
  | _ => []

/-- The immediate subdirectories of a listing whose names are not
excluded, in listing order. -/
def immediateDirs (dirPath : List String) (excludeDirs : List String) : FSNode → List (List String)
  | .dirCons name child rest =>
    if child.isDir ∧ name ∉ excludeDirs then
      (dirPath ++ [name]) :: immediateDirs dirPath excludeDirs rest
    else immediateDirs dirPath excludeDirs rest
  | _ => []

/-- The immediate `(name, size)` pairs of the listing's stat-ok regular files. -/
def immediateStatFiles : FSNode → List (String × Nat)
  | .dirCons name (.file (some size)) rest => (name, size) :: immediateStatFiles rest
  | .dirCons _ _ rest => immediateStatFiles rest
  | _ => []

/-- JS `\s` (WhiteSpace ∪ LineTerminator). -/
def wsChar (c : Char) : Bool :=
  c == ' ' || c == '\t' || c == '\n' || c == '\r' || c == '\x0b' || c == '\x0c' ||
  c == '\u00A0' || c == '\u1680' || (decide ('\u2000' ≤ c) && decide (c ≤ '\u200A')) ||
  c == '\u2028' || c == '\u2029' || c == '\u202F' || c == '\u205F' || c == '\uFEFF' ||
  c == '\u3000'

/-- JS `.` without the `s` flag: anything but a line terminator. -/
def dotChar (c : Char) : Bool :=
  !(c == '\n' || c == '\r' || c == '\u2028' || c == '\u2029')

/-- A literal character of a case-insensitive (`i` flag) regex, in
continuation style: the continuation receives the unconsumed suffix. -/
def litCI (ch : Char) (next : List Char → Option (List Char × List Char)) :
    List Char → Option (List Char × List Char)
  | [] => none
  | c :: r => if c.toLower = ch.toLower then next r else none

/-- A sequence of case-insensitive literal characters (the tag keyword). -/
def litSeq : List Char → (List Char → Option (List Char × List Char)) →
    List Char → Option (List Char × List Char)
  | [], next, l => next l
  | ch :: s, next, l => litCI ch (litSeq s next) l

/-- Greedy `\s*` with backtracking: try consuming the whitespace
character first, fall back to stopping here. -/
def wsStar (next : List Char → Option (List Char × List Char)) :
    List Char → Option (List Char × List Char)
  | [] => next []
  | c :: r =>
    if wsChar c then
      match wsStar next r with
      | some v => some v
      | none => next (c :: r)
    else next (c :: r)

/-- Greedy `x?` with backtracking: try consuming `ch` first. -/
def optChar (ch : Char) (next : List Char → Option (List Char × List Char)) :
    List Char → Option (List Char × List Char)
  | [] => next []
  | c :: r =>
    if c = ch then
      match next r with
      | some v => some v
      | none => next (c :: r)
    else next (c :: r)

/-- Greedy `(.+)` at the end of an alternative: captures the maximal
nonempty run of non-terminator characters. -/
def dotPlus (l : List Char) : Option (List Char × List Char) :=
  match l.takeWhile dotChar with
  | [] => none
  | c :: cs => some (c :: cs, l.dropWhile dotChar)

/-- Embeds `\s*\*\/`: `*` is not whitespace, so the greedy `\s*` here is
deterministic: skip all whitespace, then require the closer. -/
def closeStar (l : List Char) : Option (List Char) :=
  match l.dropWhile wsChar with
  | '*' :: '/' :: r => some r
  | _ => none

/-- Lazy `(.+?)\s*\*\/`: grow the capture one character at a time,
trying the block-comment closer after each extension.  `acc` is the
reversed capture accumulated so far. -/
def lazyCapAux (acc : List Char) : List Char → Option (List Char × List Char)
  | [] => none
  | c :: r =>
    if dotChar c then
      match closeStar r with
      | some rest => some ((c :: acc).reverse, rest)
      | none => lazyCapAux (c :: acc) r
    else none

/-- Embeds `:?\s*(.+)`: the shared tail of the line-comment and `#`-comment alternatives. -/
def tailCapture : List Char → Option (List Char × List Char) :=
  optChar ':' (wsStar dotPlus)

/-- First alternative `\/\/\s*TAG:?\s*(.+)`. -/
def altLine (tag : List Char) : List Char → Option (List Char × List Char) :=
  litCI '/' (litCI '/' (wsStar (litSeq tag tailCapture)))

/-- Second alternative `\/\*\s*TAG:?\s*(.+?)\s*\*\/`. -/
def altBlock (tag : List Char) : List Char → Option (List Char × List Char) :=
  litCI '/' (litCI '*' (wsStar (litSeq tag (optChar ':' (wsStar (lazyCapAux []))))))

/-- Third alternative `#\s*TAG:?\s*(.+)`. -/
def altHash (tag : List Char) : List Char → Option (List Char × List Char) :=
  litCI '#' (wsStar (litSeq tag tailCapture))

/-- The three capture groups of one match object: exactly one is set,
according to which alternative matched (`m[1]`, `m[2]`, `m[3]`). -/
abbrev Caps := Option (List Char) × Option (List Char) × Option (List Char)

/-- Attempt the whole pattern at the start of `l`, alternatives in
source order, returning the capture groups and the unconsumed suffix. -/
def matchAt (tag : List Char) (l : List Char) : Option (Caps × List Char) :=
  match altLine tag l with
  | some (cap, rest) => some ((some cap, none, none), rest)
  | none =>
    match altBlock tag l with
    | some (cap, rest) => some ((none, some cap, none), rest)
    | none =>
      match altHash tag l with
      | some (cap, rest) => some ((none, none, some cap), rest)
      | none => none

/-- Fueled global scan: leftmost match, then continue after it
(`matchAll` with the `g` flag).  `l.length` fuel always suffices. -/
def jsMatchAllF (tag : List Char) : Nat → List Char → List Caps
  | 0, _ => []
  | fuel + 1, l =>
    match matchAt tag l with
    | some (caps, rest) => caps :: jsMatchAllF tag fuel rest
    | none =>
      match l with
      | [] => []
      | _ :: r => jsMatchAllF tag fuel r

/-- Embeds `content.matchAll(pattern)`: the capture groups of every
non-overlapping match, left to right. -/
def jsMatchAll (tag : List Char) (l : List Char) : List Caps :=
  jsMatchAllF tag l.length l

/-- Fueled global scan that also records each match's start index and length. -/
def jsMatchAllPosF (tag : List Char) : Nat → Nat → List Char → List (Nat × Nat × Caps)
  | 0, _, _ => []
  | fuel + 1, pos, l =>
    match matchAt tag l with
    | some (caps, rest) =>
      (pos, l.length - rest.length, caps) ::
        jsMatchAllPosF tag fuel (pos + (l.length - rest.length)) rest
    | none =>
      match l with
      | [] => []
      | _ :: r => jsMatchAllPosF tag fuel (pos + 1) r

/-- Position-annotated version of `jsMatchAll`. -/
def jsMatchAllPos (tag : List Char) (l : List Char) : List (Nat × Nat × Caps) :=
  jsMatchAllPosF tag l.length 0 l

/-- Embeds `match[1] || match[2] || match[3] || ''`: an unset group is
`undefined` (falsy) and a set-but-empty capture would be falsy too. -/
def jsOrCaps (m : Caps) : List Char :=
  let a := m.1.getD []
  let b := m.2.1.getD []
  let c := m.2.2.getD []
  if a ≠ [] then a else if b ≠ [] then b else if c ≠ [] then c else []

/-- JS `String.prototype.trim`: strip `\s` characters from both ends. -/
def trimJS (l : List Char) : List Char :=
  ((l.dropWhile wsChar).reverse.dropWhile wsChar).reverse

instance {ε α : Type} [DecidableEq ε] [DecidableEq α] : DecidableEq (Except ε α) := fun x y =>
  match x, y with
  | .ok a, .ok b => if h : a = b then .isTrue (by simp [h]) else .isFalse (by simp [h])
  | .error a, .error b => if h : a = b then .isTrue (by simp [h]) else .isFalse (by simp [h])
  | .ok _, .error _ => .isFalse (by simp)
  | .error _, .ok _ => .isFalse (by simp)

/-- An input record of `scanForTodos`: the fields it reads (`path`,
`name`) plus the outcome of `fs.readFile(file.path, 'utf-8')`. -/
structure InFile where
  path : List String
  name : String
  content : Except Unit (List Char)
  deriving DecidableEq

/-- One aggregate entry `{ file: file.name, comment }`. -/
structure TagEntry where
  file : String
  comment : List Char
  deriving DecidableEq

/-- The per-file `fileResults` record. -/
structure FileTagReport where
  path : List String
  name : String
  todos : List (List Char)
  fixmes : List (List Char)
  hacks : List (List Char)
  deriving DecidableEq

/-- The aggregate `results` record of `scanForTodos`. -/
structure TagScanResult where
  todos : List TagEntry
  fixmes : List TagEntry
  hacks : List TagEntry
  totalCount : Nat
  fileCount : Nat
  fileDetails : List FileTagReport
  deriving DecidableEq

/-- The `TODO` tag keyword. -/
def tagTODO : List Char := ['T', 'O', 'D', 'O']

/-- The `FIXME` tag keyword. -/
def tagFIXME : List Char := ['F', 'I', 'X', 'M', 'E']

/-- The `HACK` tag keyword. -/
def tagHACK : List Char := ['H', 'A', 'C', 'K']

/-- The `scanExtensions` allowlist. -/
def scanExtensions : List (List Char) :=
  [".js", ".jsx", ".ts", ".tsx", ".py", ".java", ".cpp", ".c", ".cs",
   ".go", ".rs", ".php", ".rb", ".swift", ".kt", ".html", ".css", ".scss"].map
    String.toList

/-- Embeds `toLowerCase` (the names involved are ASCII). -/
def lowerStr (l : List Char) : List Char := l.map Char.toLower

/-- The comment texts one tag kind extracts from a file content:
matched globally, first nonempty capture, trimmed. -/
def tagComments (tag : List Char) (content : List Char) : List (List Char) :=
  (jsMatchAll tag content).map (fun m => trimJS (jsOrCaps m))

/-- The `fileResults` record built for one readable file. -/
def processContent (path : List String) (name : String) (content : List Char) : FileTagReport :=
  ⟨path, name, tagComments tagTODO content, tagComments tagFIXME content,
    tagComments tagHACK content⟩

/-- The freshly initialised `results` object of `scanForTodos`. -/
def emptyTagResult : TagScanResult := ⟨[], [], [], 0, 0, []⟩

/-- One iteration of the file loop after a successful read: push every
match into the per-kind aggregates and, when any match was found
(`hasComments`), record `fileResults` and bump `fileCount`. -/
def addFile (acc : TagScanResult) (fr : FileTagReport) : TagScanResult :=
  let hasComments := !fr.todos.isEmpty || !fr.fixmes.isEmpty || !fr.hacks.isEmpty
  { todos := acc.todos ++ fr.todos.map (fun c => ⟨fr.name, c⟩)
    fixmes := acc.fixmes ++ fr.fixmes.map (fun c => ⟨fr.name, c⟩)
    hacks := acc.hacks ++ fr.hacks.map (fun c => ⟨fr.name, c⟩)
    totalCount := acc.totalCount
    fileCount := if hasComments then acc.fileCount + 1 else acc.fileCount
    fileDetails := if hasComments then acc.fileDetails ++ [fr] else acc.fileDetails }

/-- The file loop of `scanForTodos`: skip names whose lowercased
`extname` is not allowlisted, skip unreadable files, process the rest. -/
def scanLoop : List InFile → TagScanResult → TagScanResult
  | [], acc => acc
  | f :: rest, acc =>
    if lowerStr (extname f.name.toList) ∈ scanExtensions then
      match f.content with
      | .error _ => scanLoop rest acc
      | .ok content => scanLoop rest (addFile acc (processContent f.path f.name content))
    else scanLoop rest acc

/-- Embeds `scanForTodos(files)`: run the loop, then set
`totalCount = todos.length + fixmes.length + hacks.length`. -/
def scanForTodos (files : List InFile) : TagScanResult :=
  let r := scanLoop files emptyTagResult
  { r with totalCount := r.todos.length + r.fixmes.length + r.hacks.length }

/-- One entry of the `getFilesWithMostTodos` output. -/
structure TopEntry where
  name : String
  path : List String
  count : Nat
  todos : Nat
  fixmes : Nat
  hacks : Nat
  deriving DecidableEq

/-- The value stored for a `fileDetails` entry:
`{ name, path, count, todos, fixmes, hacks }`. -/
def mkTopEntry (fd : FileTagReport) : TopEntry :=
  ⟨fd.name, fd.path, fd.todos.length + fd.fixmes.length + fd.hacks.length,
    fd.todos.length, fd.fixmes.length, fd.hacks.length⟩

/-- JS object assignment `fileCounts[name] = v`: overwrite in place
(keeping the key's enumeration position), or append a new key. -/
def upsert (k : String) (v : TopEntry) : List (String × TopEntry) → List (String × TopEntry)
  | [] => [(k, v)]
  | (k', v') :: rest => if k' = k then (k, v) :: rest else (k', v') :: upsert k v rest

/-- Stable insertion (descending by `count`): an element goes before
the first element whose count is not larger, so that elements inserted
earlier (= earlier in the original array) precede equal-count ones. -/
def insertByCount (x : TopEntry) : List TopEntry → List TopEntry
  | [] => [x]
  | y :: ys => if y.count ≤ x.count then x :: y :: ys else y :: insertByCount x ys

/-- Embeds `.sort((a, b) => b.count - a.count)`: JS sort is stable, and a
stable sort result is unique, so a stable insertion sort embeds it. -/
def sortByCountDesc (l : List TopEntry) : List TopEntry := l.foldr insertByCount []

/-- Embeds `getFilesWithMostTodos(todoResults, limit)`. -/
def getFilesWithMostTodos (todoResults : TagScanResult) (limit : Nat) : List TopEntry :=
  let fileCounts :=
    todoResults.fileDetails.foldl (fun m fd => upsert fd.name (mkTopEntry fd) m) []
  (sortByCountDesc (fileCounts.map Prod.snd)).take limit

/-- Modelled from the amended-claim reading of `fileCounts[name] = v`:
the last `fileDetails` entry carrying the name `n`, if any.  This is a
specification-side definition (it does not follow the code's fold), to
be compared with `getFilesWithMostTodos`. -/
def lastWithName (n : String) : List FileTagReport → Option FileTagReport
  | [] => none
  | fd :: rest =>
    match lastWithName n rest with
    | some fd' => some fd'
    | none => if fd.name = n then some fd else none

/-- Specification-side keyed map: one pair per distinct name, in
first-appearance order, valued by the last `fileDetails` entry of that
name.  `getFilesWithMostTodos`'s fold is proved equal to this. -/
def keyedPairs : List FileTagReport → List (String × TopEntry)
  | [] => []
  | fd :: rest =>
    (fd.name,
      match lastWithName fd.name rest with
      | some fd' => mkTopEntry fd'
      | none => mkTopEntry fd) ::
    (keyedPairs rest).filter (fun p => !(p.1 == fd.name))

/-- Values of `keyedPairs`, in first-appearance order of names. -/
def keyedEntries (fds : List FileTagReport) : List TopEntry :=
  (keyedPairs fds).map Prod.snd

/-- A matching combinator consumes at least one character whenever it
succeeds (used for termination/fuel-sufficiency of the global scan). -/
def Shrinks (next : List Char → Option (List Char × List Char)) : Prop :=
  ∀ l cap r, next l = some (cap, r) → r.length < l.length

lemma scanDirectory_dirCons (dirPath excludeDirs : List String) (maxDepth : Option Nat)
    (currentDepth : Nat) (name : String) (child rest : FSNode) :
    scanDirectory dirPath excludeDirs maxDepth currentDepth (.dirCons name child rest) =
      match scanEntry dirPath excludeDirs maxDepth currentDepth name child with
      | .error e => .error e
      | .ok r1 =>
        match scanDirectory dirPath excludeDirs maxDepth currentDepth rest with
        | .error e => .error e
        | .ok r2 => .ok ⟨r1.files ++ r2.files, r1.directories ++ r2.directories,
            r1.totalSize + r2.totalSize⟩ := rfl

lemma scanDirCons_ok {dirPath excludeDirs : List String} {maxDepth : Option Nat}
    {currentDepth : Nat} {name : String} {child rest : FSNode} {r : ScanResult} :
    scanDirectory dirPath excludeDirs maxDepth currentDepth (.dirCons name child rest) = .ok r ↔
      ∃ r1 r2, scanEntry dirPath excludeDirs maxDepth currentDepth name child = .ok r1 ∧
        scanDirectory dirPath excludeDirs maxDepth currentDepth rest = .ok r2 ∧
        r = ⟨r1.files ++ r2.files, r1.directories ++ r2.directories,
          r1.totalSize + r2.totalSize⟩ := by
  rw [scanDirectory_dirCons]
  cases he : scanEntry dirPath excludeDirs maxDepth currentDepth name child with
  | error e => simp
  | ok r1 =>
    cases hr : scanDirectory dirPath excludeDirs maxDepth currentDepth rest with
    | error e => simp
    | ok r2 =>
      simp only [Except.ok.injEq]
      constructor
      · intro h
        exact ⟨r1, r2, rfl, rfl, h.symm⟩
      · rintro ⟨a, b, ha, hb, h3⟩
        cases ha
        cases hb
        exact h3.symm

lemma scanEntry_ok_cases {dirPath excludeDirs : List String} {maxDepth : Option Nat}
    {currentDepth : Nat} {name : String} {child : FSNode} {r1 : ScanResult}
    (h : scanEntry dirPath excludeDirs maxDepth currentDepth name child = .ok r1) :
    (∃ size, child = .file (some size) ∧
        r1 = ⟨[⟨dirPath ++ [name], name, size, extname name.toList⟩], [], size⟩) ∨
    r1 = emptyScan ∨
    (child.isDir = true ∧ name ∉ excludeDirs ∧
      ∃ sub, scanDirectory (dirPath ++ [name]) excludeDirs maxDepth (currentDepth + 1) child =
          .ok sub ∧
        r1 = ⟨sub.files, (dirPath ++ [name]) :: sub.directories, sub.totalSize⟩) ∨
    (child.isDir = true ∧ name ∉ excludeDirs ∧ r1 = ⟨[], [dirPath ++ [name]], 0⟩) := by
  unfold scanEntry at h
  split at h
  · rename_i hdir
    split at h
    · rename_i hmem
      right; left
      injection h with h'
      exact h'.symm
    · rename_i hmem
      split at h
      · split at h
        · rename_i sub hsub
          injection h with h'
          right; right; left
          exact ⟨hdir, hmem, sub, hsub, h'.symm⟩
        · exact absurd h (by simp)
      · injection h with h'
        right; right; right
        exact ⟨hdir, hmem, h'.symm⟩
  · rename_i hdir
    cases child with
    | file stat =>
      cases stat with
      | none =>
        right; left
        injection h with h'
        exact h'.symm
      | some size =>
        injection h with h'
        left
        exact ⟨size, rfl, h'.symm⟩
    | other =>
      right; left
      injection h with h'
      exact h'.symm
    | dirErr e => exact absurd rfl hdir
    | dirNil => exact absurd rfl hdir
    | dirCons n c r => exact absurd rfl hdir

/-- C2: for every `ScanResult` returned by a successful scan,
`totalSize` equals the sum of the `size` fields over `files`. -/
theorem scan_totalSize_eq_sum :
    ∀ (node : FSNode) (dirPath excludeDirs : List String) (maxDepth : Option Nat)
      (currentDepth : Nat) (r : ScanResult),
      scanDirectory dirPath excludeDirs maxDepth currentDepth node = .ok r →
      r.totalSize = (r.files.map FileEntry.size).sum := by
  intro node
  induction node with
  | file stat =>
    intro dirPath excl md cd r h
    simp [scanDirectory] at h
  | other =>
    intro dirPath excl md cd r h
    simp [scanDirectory] at h
  | dirErr e =>
    intro dirPath excl md cd r h
    simp only [scanDirectory] at h
    split at h
    · injection h with h'
      subst h'
      rfl
    · exact absurd h (by simp)
  | dirNil =>
    intro dirPath excl md cd r h
    injection h with h'
    subst h'
    rfl
  | dirCons name child rest ihc ihr =>
    intro dirPath excl md cd r h
    rw [scanDirCons_ok] at h
    obtain ⟨r1, r2, h1, h2, h3⟩ := h
    subst h3
    have hr2 := ihr dirPath excl md cd r2 h2
    rcases scanEntry_ok_cases h1 with ⟨size, hc, he⟩ | he | ⟨hdir, hmem, sub, hsub, he⟩ |
      ⟨hdir, hmem, he⟩
    · subst he
      simp [hr2]
    · subst he
      simp [emptyScan, hr2]
    · subst he
      have hsub' := ihc (dirPath ++ [name]) excl md (cd + 1) sub hsub
      simp [hr2, hsub']
    · subst he
      simp [hr2]

/-- Witness for C2 at a concrete one-file tree. -/
theorem scan_totalSize_witness :
    scanDirectory ["r"] defaultExcludeDirs none 0
        (FSNode.dirCons ("a.js") (FSNode.file (some 3)) FSNode.dirNil) =
      .ok ⟨[⟨["r", "a.js"], "a.js", 3, ['.', 'j', 's']⟩], [], 3⟩ ∧
    (⟨[⟨["r", "a.js"], "a.js", 3, ['.', 'j', 's']⟩], [], 3⟩ : ScanResult).totalSize =
      ((⟨[⟨["r", "a.js"], "a.js", 3, ['.', 'j', 's']⟩], [], 3⟩ : ScanResult).files.map
        FileEntry.size).sum :=
  ⟨by decide,
    scan_totalSize_eq_sum (FSNode.dirCons ("a.js") (FSNode.file (some 3)) FSNode.dirNil)
      ["r"] defaultExcludeDirs none 0
      ⟨[⟨["r", "a.js"], "a.js", 3, ['.', 'j', 's']⟩], [], 3⟩ (by decide)⟩

/-- C3: every recorded directory path extends `dirPath` by a nonempty
chain of components none of which is excluded, and every recorded
file's path is `dirPath`, a chain of non-excluded directory
components, then its own name.  Hence no excluded base name is ever
recorded as a directory and nothing below an excluded directory is
recorded at any depth. -/
theorem scan_excluded_components :
    ∀ (node : FSNode) (dirPath excludeDirs : List String) (maxDepth : Option Nat)
      (currentDepth : Nat) (r : ScanResult),
      scanDirectory dirPath excludeDirs maxDepth currentDepth node = .ok r →
      (∀ p ∈ r.directories, ∃ comps, p = dirPath ++ comps ∧ comps ≠ [] ∧
        ∀ c ∈ comps, c ∉ excludeDirs) ∧
      (∀ fe ∈ r.files, ∃ comps, fe.path = dirPath ++ comps ++ [fe.name] ∧
        ∀ c ∈ comps, c ∉ excludeDirs) := by
  intro node
  induction node with
  | file stat =>
    intro dirPath excl md cd r h
    simp [scanDirectory] at h
  | other =>
    intro dirPath excl md cd r h
    simp [scanDirectory] at h
  | dirErr e =>
    intro dirPath excl md cd r h
    simp only [scanDirectory] at h
    split at h
    · injection h with h'
      subst h'
      exact ⟨fun p hp => by simp [emptyScan] at hp, fun fe hfe => by simp [emptyScan] at hfe⟩
    · exact absurd h (by simp)
  | dirNil =>
    intro dirPath excl md cd r h
    injection h with h'
    subst h'
    exact ⟨fun p hp => by simp [emptyScan] at hp, fun fe hfe => by simp [emptyScan] at hfe⟩
  | dirCons name child rest ihc ihr =>
    intro dirPath excl md cd r h
    rw [scanDirCons_ok] at h
    obtain ⟨r1, r2, h1, h2, h3⟩ := h
    subst h3
    obtain ⟨ihr_dirs, ihr_files⟩ := ihr dirPath excl md cd r2 h2
    constructor
    · intro p hp
      simp only [List.mem_append] at hp
      rcases hp with hp | hp
      · rcases scanEntry_ok_cases h1 with ⟨size, hc, he⟩ | he | ⟨hdir, hmem, sub, hsub, he⟩ |
          ⟨hdir, hmem, he⟩
        · subst he
          simp at hp
        · subst he
          simp [emptyScan] at hp
        · subst he
          obtain ⟨sub_dirs, _⟩ := ihc (dirPath ++ [name]) excl md (cd + 1) sub hsub
          simp only [List.mem_cons] at hp
          rcases hp with rfl | hp'
          · exact ⟨[name], rfl, by simp, by
              intro c hc
              simp only [List.mem_singleton] at hc
              subst hc
              exact hmem⟩
          · obtain ⟨comps', hpe, _, hcl⟩ := sub_dirs p hp'
            refine ⟨name :: comps', ?_, by simp, ?_⟩
            · rw [hpe, List.append_assoc]
              rfl
            · intro c hc
              rcases List.mem_cons.1 hc with rfl | hc'
              · exact hmem
              · exact hcl c hc'
        · subst he
          simp only [List.mem_singleton] at hp
          subst hp
          exact ⟨[name], rfl, by simp, by
            intro c hc
            simp only [List.mem_singleton] at hc
            subst hc
            exact hmem⟩
      · exact ihr_dirs p hp
    · intro fe hfe
      simp only [List.mem_append] at hfe
      rcases hfe with hfe | hfe
      · rcases scanEntry_ok_cases h1 with ⟨size, hc, he⟩ | he | ⟨hdir, hmem, sub, hsub, he⟩ |
          ⟨hdir, hmem, he⟩
        · subst he
          simp only [List.mem_singleton] at hfe
          subst hfe
          exact ⟨[], by simp, by intro c hc; simp at hc⟩
        · subst he
          simp [emptyScan] at hfe
        · subst he
          obtain ⟨_, sub_files⟩ := ihc (dirPath ++ [name]) excl md (cd + 1) sub hsub
          obtain ⟨comps', hpe, hcl⟩ := sub_files fe hfe
          refine ⟨name :: comps', ?_, ?_⟩
          · rw [hpe]
            simp
          · intro c hc
            rcases List.mem_cons.1 hc with rfl | hc'
            · exact hmem
            · exact hcl c hc'
        · subst he
          simp at hfe
      · exact ihr_files fe hfe

/-- Witness for C3 on a tree containing an excluded directory. -/
theorem scan_excluded_witness :
    scanDirectory ["r"] defaultExcludeDirs none 0
        (FSNode.dirCons ("node_modules")
          (FSNode.dirCons ("x.js") (FSNode.file (some 9)) FSNode.dirNil)
          (FSNode.dirCons ("src") (FSNode.dirCons ("a.js") (FSNode.file (some 1)) FSNode.dirNil)
            FSNode.dirNil)) =
      .ok ⟨[⟨["r", "src", "a.js"], "a.js", 1, ['.', 'j', 's']⟩], [["r", "src"]], 1⟩ ∧
    (∀ p ∈ [[("r" : String), "src"]], ∃ comps, p = ["r"] ++ comps ∧ comps ≠ [] ∧
      ∀ c ∈ comps, c ∉ defaultExcludeDirs) :=
  ⟨by decide,
    ((scan_excluded_components
      (FSNode.dirCons ("node_modules")
        (FSNode.dirCons ("x.js") (FSNode.file (some 9)) FSNode.dirNil)
        (FSNode.dirCons ("src") (FSNode.dirCons ("a.js") (FSNode.file (some 1)) FSNode.dirNil)
          FSNode.dirNil))
      ["r"] defaultExcludeDirs none 0
      ⟨[⟨["r", "src", "a.js"], "a.js", 1, ['.', 'j', 's']⟩], [["r", "src"]], 1⟩
      (by decide)).1 : _)⟩

lemma scanEntry_dir_depth0 {dirPath excludeDirs : List String} {name : String} {child : FSNode}
    {r1 : ScanResult} (hdir : child.isDir = true)
    (h : scanEntry dirPath excludeDirs (some 0) 0 name child = .ok r1) :
    r1 = if name ∈ excludeDirs then emptyScan else ⟨[], [dirPath ++ [name]], 0⟩ := by
  unfold scanEntry at h
  rw [if_pos hdir] at h
  by_cases hmem : name ∈ excludeDirs
  · rw [if_pos hmem] at h
    rw [if_pos hmem]
    injection h with h'
    exact h'.symm
  · rw [if_neg hmem] at h
    rw [if_neg hmem]
    have hd : depthLt 0 (some 0) = false := rfl
    rw [hd] at h
    simp only [Bool.false_eq_true, if_false] at h
    injection h with h'
    exact h'.symm

/-- C7: with `maxDepth = 0` (at root depth 0) a successful scan
records exactly the root's immediate stat-ok regular files, and
exactly the root's immediate non-excluded subdirectories; nothing is
recursed into. -/
theorem scan_maxDepth_zero :
    ∀ (node : FSNode) (dirPath excludeDirs : List String) (r : ScanResult),
      scanDirectory dirPath excludeDirs (some 0) 0 node = .ok r →
      r.files = immediateFiles dirPath node ∧
      r.directories = immediateDirs dirPath excludeDirs node := by
  intro node
  induction node with
  | file stat =>
    intro dirPath excl r h
    simp [scanDirectory] at h
  | other =>
    intro dirPath excl r h
    simp [scanDirectory] at h
  | dirErr e =>
    intro dirPath excl r h
    simp only [scanDirectory] at h
    split at h
    · injection h with h'
      subst h'
      exact ⟨rfl, rfl⟩
    · exact absurd h (by simp)
  | dirNil =>
    intro dirPath excl r h
    injection h with h'
    subst h'
    exact ⟨rfl, rfl⟩
  | dirCons name child rest ihc ihr =>
    intro dirPath excl r h
    rw [scanDirCons_ok] at h
    obtain ⟨r1, r2, h1, h2, h3⟩ := h
    subst h3
    obtain ⟨hf2, hd2⟩ := ihr dirPath excl r2 h2
    cases child with
    | file stat =>
      cases stat with
      | some size =>
        have hr1 : r1 = ⟨[⟨dirPath ++ [name], name, size, extname name.toList⟩], [], size⟩ := by
          unfold scanEntry at h1
          simp only [FSNode.isDir, Bool.false_eq_true, if_false] at h1
          injection h1 with h'
          exact h'.symm
        subst hr1
        constructor
        · simp [immediateFiles, hf2]
        · simp [immediateDirs, FSNode.isDir, hd2]
      | none =>
        have hr1 : r1 = emptyScan := by
          unfold scanEntry at h1
          simp only [FSNode.isDir, Bool.false_eq_true, if_false] at h1
          injection h1 with h'
          exact h'.symm
        subst hr1
        constructor
        · simp [immediateFiles, hf2, emptyScan]
        · simp [immediateDirs, FSNode.isDir, hd2, emptyScan]
    | other =>
      have hr1 : r1 = emptyScan := by
        unfold scanEntry at h1
        simp only [FSNode.isDir, Bool.false_eq_true, if_false] at h1
        injection h1 with h'
        exact h'.symm
      subst hr1
      constructor
      · simp [immediateFiles, hf2, emptyScan]
      · simp [immediateDirs, FSNode.isDir, hd2, emptyScan]
    | dirErr e =>
      have hr1 := @scanEntry_dir_depth0 dirPath excl name (.dirErr e) r1 rfl h1
      by_cases hmem : name ∈ excl
      · rw [if_pos hmem] at hr1
        subst hr1
        constructor
        · simp [immediateFiles, hf2, emptyScan]
        · simp [immediateDirs, FSNode.isDir, hmem, hd2, emptyScan]
      · rw [if_neg hmem] at hr1
        subst hr1
        constructor
        · simp [immediateFiles, hf2]
        · simp [immediateDirs, FSNode.isDir, hmem, hd2]
    | dirNil =>
      have hr1 := @scanEntry_dir_depth0 dirPath excl name .dirNil r1 rfl h1
      by_cases hmem : name ∈ excl
      · rw [if_pos hmem] at hr1
        subst hr1
        constructor
        · simp [immediateFiles, hf2, emptyScan]
        · simp [immediateDirs, FSNode.isDir, hmem, hd2, emptyScan]
      · rw [if_neg hmem] at hr1
        subst hr1
        constructor
        · simp [immediateFiles, hf2]
        · simp [immediateDirs, FSNode.isDir, hmem, hd2]
    | dirCons n c rr =>
      have hr1 := @scanEntry_dir_depth0 dirPath excl name (.dirCons n c rr) r1 rfl h1
      by_cases hmem : name ∈ excl
      · rw [if_pos hmem] at hr1
        subst hr1
        constructor
        · simp [immediateFiles, hf2, emptyScan]
        · simp [immediateDirs, FSNode.isDir, hmem, hd2, emptyScan]
      · rw [if_neg hmem] at hr1
        subst hr1
        constructor
        · simp [immediateFiles, hf2]
        · simp [immediateDirs, FSNode.isDir, hmem, hd2]

/-- Witness for C7: depth-0 scan of a tree with a file, a nested
subtree, and an excluded directory. -/
theorem scan_maxDepth_zero_witness :
    scanDirectory ["r"] defaultExcludeDirs (some 0) 0
        (FSNode.dirCons ("a.js") (FSNode.file (some 2))
          (FSNode.dirCons ("sub")
            (FSNode.dirCons ("deep.js") (FSNode.file (some 5)) FSNode.dirNil)
            (FSNode.dirCons ("dist") FSNode.dirNil FSNode.dirNil))) =
      .ok ⟨[⟨["r", "a.js"], "a.js", 2, ['.', 'j', 's']⟩], [["r", "sub"]], 2⟩ ∧
    ([⟨["r", "a.js"], "a.js", 2, ['.', 'j', 's']⟩] : List FileEntry) =
      immediateFiles ["r"]
        (FSNode.dirCons ("a.js") (FSNode.file (some 2))
          (FSNode.dirCons ("sub")
            (FSNode.dirCons ("deep.js") (FSNode.file (some 5)) FSNode.dirNil)
            (FSNode.dirCons ("dist") FSNode.dirNil FSNode.dirNil))) :=
  ⟨by decide,
    (scan_maxDepth_zero
      (FSNode.dirCons ("a.js") (FSNode.file (some 2))
        (FSNode.dirCons ("sub")
          (FSNode.dirCons ("deep.js") (FSNode.file (some 5)) FSNode.dirNil)
          (FSNode.dirCons ("dist") FSNode.dirNil FSNode.dirNil)))
      ["r"] defaultExcludeDirs
      ⟨[⟨["r", "a.js"], "a.js", 2, ['.', 'j', 's']⟩], [["r", "sub"]], 2⟩
      (by decide)).1⟩

/-- C10: the exclusion set only guards the directory branch: an
immediate regular file whose name is in `excludeDirs` is still
recorded as a `FileEntry` (and, with C2, its size is counted in
`totalSize`). -/
theorem excluded_name_file_recorded :
    ∀ (node : FSNode) (dirPath excludeDirs : List String) (maxDepth : Option Nat)
      (currentDepth : Nat) (r : ScanResult) (n : String) (s : Nat),
      scanDirectory dirPath excludeDirs maxDepth currentDepth node = .ok r →
      n ∈ excludeDirs →
      (n, s) ∈ immediateStatFiles node →
      (⟨dirPath ++ [n], n, s, extname n.toList⟩ : FileEntry) ∈ r.files := by
  intro node
  induction node with
  | file stat =>
    intro dirPath excl md cd r n s h hx hm
    simp [immediateStatFiles] at hm
  | other =>
    intro dirPath excl md cd r n s h hx hm
    simp [immediateStatFiles] at hm
  | dirErr e =>
    intro dirPath excl md cd r n s h hx hm
    simp [immediateStatFiles] at hm
  | dirNil =>
    intro dirPath excl md cd r n s h hx hm
    simp [immediateStatFiles] at hm
  | dirCons name child rest ihc ihr =>
    intro dirPath excl md cd r n s h hx hm
    rw [scanDirCons_ok] at h
    obtain ⟨r1, r2, h1, h2, h3⟩ := h
    subst h3
    refine List.mem_append.2 ?_
    cases child with
    | file stat =>
      cases stat with
      | some size =>
        rcases List.mem_cons.1 hm with heq | hm'
        · obtain ⟨rfl, rfl⟩ := Prod.mk.inj heq
          left
          have hr1 : r1 = ⟨[⟨dirPath ++ [n], n, s, extname n.toList⟩], [], s⟩ := by
            unfold scanEntry at h1
            simp only [FSNode.isDir, Bool.false_eq_true, if_false] at h1
            injection h1 with h'
            exact h'.symm
          subst hr1
          simp
        · exact Or.inr (ihr dirPath excl md cd r2 n s h2 hx hm')
      | none => exact Or.inr (ihr dirPath excl md cd r2 n s h2 hx hm)
    | other => exact Or.inr (ihr dirPath excl md cd r2 n s h2 hx hm)
    | dirErr e => exact Or.inr (ihr dirPath excl md cd r2 n s h2 hx hm)
    | dirNil => exact Or.inr (ihr dirPath excl md cd r2 n s h2 hx hm)
    | dirCons a b c => exact Or.inr (ihr dirPath excl md cd r2 n s h2 hx hm)

/-- Witness for C10: a file literally named `node_modules`. -/
theorem excluded_name_file_witness :
    scanDirectory ["r"] defaultExcludeDirs none 0
        (FSNode.dirCons ("node_modules") (FSNode.file (some 7)) FSNode.dirNil) =
      .ok ⟨[⟨["r", "node_modules"], "node_modules", 7, []⟩], [], 7⟩ ∧
    ("node_modules" : String) ∈ defaultExcludeDirs ∧
    (⟨["r", "node_modules"], "node_modules", 7, extname ("node_modules").toList⟩ : FileEntry) ∈
      (⟨[⟨["r", "node_modules"], "node_modules", 7, []⟩], [], 7⟩ : ScanResult).files :=
  ⟨by decide, by decide,
    excluded_name_file_recorded
      (FSNode.dirCons ("node_modules") (FSNode.file (some 7)) FSNode.dirNil)
      ["r"] defaultExcludeDirs none 0
      ⟨[⟨["r", "node_modules"], "node_modules", 7, []⟩], [], 7⟩
      ("node_modules") 7 (by decide) (by decide) (by decide)⟩

/-- Counterexample to C6: an `ENOENT` (NotFound) failure on a subtree
is NOT treated like an access error — it aborts the whole scan, while
the same tree with `EACCES` is swallowed. -/
theorem notFound_propagates_cex :
    scanDirectory ["r"] defaultExcludeDirs none 0
        (FSNode.dirCons ("sub") (FSNode.dirErr ECode.enoent) FSNode.dirNil) =
      .error ECode.enoent ∧
    scanDirectory ["r"] defaultExcludeDirs none 0
        (FSNode.dirCons ("sub") (FSNode.dirErr ECode.eacces) FSNode.dirNil) =
      .ok ⟨[], [["r", "sub"]], 0⟩ := by
  constructor
  · decide
  · decide

/-- C6 (amended): a listing failure is swallowed (yielding an empty
result for that subtree) exactly when its code is `EACCES` or
`EPERM`; every other code — including `ENOENT`/NotFound — propagates
and aborts the whole call, both at the root and below a recursed-into
subdirectory. -/
theorem scan_error_semantics :
    ∀ (dirPath excludeDirs : List String) (maxDepth : Option Nat) (currentDepth : Nat)
      (name : String) (e : ECode),
      (scanDirectory dirPath excludeDirs maxDepth currentDepth (.dirErr e) =
        if e = .eacces ∨ e = .eperm then .ok emptyScan else .error e) ∧
      (name ∉ excludeDirs → depthLt currentDepth maxDepth = true →
        scanDirectory dirPath excludeDirs maxDepth currentDepth
            (.dirCons name (.dirErr e) .dirNil) =
          if e = .eacces ∨ e = .eperm then .ok ⟨[], [dirPath ++ [name]], 0⟩
          else .error e) := by
  intro dirPath excl md cd name e
  constructor
  · rfl
  · intro hmem hd
    rw [scanDirectory_dirCons]
    have hent : scanEntry dirPath excl md cd name (.dirErr e) =
        if e = .eacces ∨ e = .eperm then .ok ⟨[], [dirPath ++ [name]], 0⟩
        else .error e := by
      by_cases he : e = .eacces ∨ e = .eperm
      · rw [if_pos he]
        unfold scanEntry
        simp [FSNode.isDir, hmem, hd, scanDirectory, he, emptyScan]
      · rw [if_neg he]
        unfold scanEntry
        simp [FSNode.isDir, hmem, hd, scanDirectory, he]
    rw [hent]
    by_cases he : e = .eacces ∨ e = .eperm
    · rw [if_pos he]
      rfl
    · rw [if_neg he]

/-- Witness for C6 (amended): the access code is swallowed at the
root, the NotFound code aborts a subtree scan. -/
theorem scan_error_semantics_witness :
    scanDirectory ["r"] defaultExcludeDirs none 0 (FSNode.dirErr ECode.eacces) =
      .ok emptyScan ∧
    scanDirectory ["r"] defaultExcludeDirs none 0
        (FSNode.dirCons ("vanished") (FSNode.dirErr ECode.enoent) FSNode.dirNil) =
      .error ECode.enoent := by
  constructor
  · have h := (scan_error_semantics ["r"] defaultExcludeDirs none 0 ("vanished")
      ECode.eacces).1
    simpa using h
  · have h := (scan_error_semantics ["r"] defaultExcludeDirs none 0 ("vanished")
      ECode.enoent).2 (by decide) (by decide)
    simpa using h

lemma extGo_spec (l : List Char) :
    ∀ (cs : List Char) (i : Nat) (sd e : Option Nat) (pre : Int),
      cs = (l.take (i + 1)).reverse → i < l.length →
      ((e = none ∧ i + 1 = l.length) ∨ e = some l.length) →
      (∀ j, sd = some j → l.getD j ' ' = '.') →
      (extGo i cs (sd, e, pre)).2.1 = some l.length ∧
      (∀ j, (extGo i cs (sd, e, pre)).1 = some j → l.getD j ' ' = '.') := by
  intro cs
  induction cs with
  | nil =>
    intro i sd e pre hcs hi he hsd
    exfalso
    have h0 : l.take (i + 1) = [] := by
      have := hcs.symm
      rwa [List.reverse_eq_nil_iff] at this
    rcases List.take_eq_nil_iff.1 h0 with h | h
    · omega
    · subst h
      simp at hi
  | cons c cs' ih =>
    intro i sd e pre hcs hi he hsd
    have htake : l.take (i + 1) = l.take i ++ [l.getD i ' '] := by
      rw [List.take_succ, List.getElem?_eq_getElem hi, List.getD_eq_getElem l ' ' hi]
      rfl
    rw [htake] at hcs
    simp only [List.reverse_append, List.reverse_cons, List.reverse_nil, List.nil_append,
      List.cons_append] at hcs
    injection hcs with hc hcs'
    have hE' : (extStep i c (sd, e, pre)).2.1 = some l.length := by
      rcases he with ⟨rfl, hlen⟩ | rfl
      · simp only [extStep]
        exact congrArg some hlen
      · simp [extStep]
    have hSd' : ∀ j, (extStep i c (sd, e, pre)).1 = some j → l.getD j ' ' = '.' := by
      intro j hj
      by_cases hdot : c = '.'
      · cases sd with
        | none =>
          simp only [extStep, hdot, if_true, Option.some.injEq] at hj
          subst hj
          rw [← hc]
          exact hdot
        | some j0 =>
          simp only [extStep, hdot, if_true, Option.some.injEq] at hj
          subst hj
          exact hsd j0 rfl
      · have hstep : (extStep i c (sd, e, pre)).1 = sd := by
          simp [extStep, hdot]
        rw [hstep] at hj
        exact hsd j hj
    simp only [extGo]
    rcases Nat.eq_zero_or_pos i with rfl | hipos
    · have hnil : cs' = [] := by simpa using hcs'
      subst hnil
      simp only [extGo]
      exact ⟨hE', hSd'⟩
    · have hlink : cs' = (l.take (i - 1 + 1)).reverse := by
        rw [show i - 1 + 1 = i from by omega]
        exact hcs'
      have hres := ih (i - 1) (extStep i c (sd, e, pre)).1 (extStep i c (sd, e, pre)).2.1
        (extStep i c (sd, e, pre)).2.2 hlink (by omega) (Or.inr hE') hSd'
      exact hres

lemma extname_suffix (n : List Char) :
    extname n = [] ∨
    ((extname n).headD ' ' = '.' ∧ ∃ k, extname n = n.drop k) := by
  by_cases hn : n = []
  · subst hn
    left
    rfl
  · have hlen : 0 < n.length := List.length_pos.2 hn
    have hlink : n.reverse = (n.take (n.length - 1 + 1)).reverse := by
      rw [show n.length - 1 + 1 = n.length from by omega, List.take_length]
    obtain ⟨hE, hSd⟩ := extGo_spec n n.reverse (n.length - 1) none none 0 hlink (by omega)
      (Or.inl ⟨rfl, by omega⟩) (fun j hj => Option.noConfusion hj)
    rcases hg : extGo (n.length - 1) n.reverse (none, none, 0) with ⟨sd, e, pre⟩
    rw [hg] at hE hSd
    simp only at hE
    subst hE
    cases sd with
    | none =>
      left
      unfold extname
      rw [hg]
    | some sd' =>
      have hred : extname n =
          if pre = 0 then []
          else if pre = 1 ∧ sd' = n.length - 1 ∧ sd' = 0 + 1 then []
          else (n.drop sd').take (n.length - sd') := by
        unfold extname
        rw [hg]
      by_cases h0 : pre = 0
      · left
        rw [hred, if_pos h0]
      · by_cases h1 : pre = 1 ∧ sd' = n.length - 1 ∧ sd' = 0 + 1
        · left
          rw [hred, if_neg h0, if_pos h1]
        · right
          have hval : extname n = (n.drop sd').take (n.length - sd') := by
            rw [hred, if_neg h0, if_neg h1]
          have hdot := hSd sd' rfl
          have hlt : sd' < n.length := by
            by_contra hge
            push_neg at hge
            rw [List.getD_eq_default _ _ hge] at hdot
            exact absurd hdot (by decide)
          have hdl : (n.drop sd').length = n.length - sd' := List.length_drop _ _
          have htake : (n.drop sd').take (n.length - sd') = n.drop sd' := by
            rw [← hdl, List.take_length]
          constructor
          · rw [hval, htake, List.headD_eq_head?, List.head?_drop,
              List.getElem?_eq_getElem hlt]
            rw [List.getD_eq_getElem n ' ' hlt] at hdot
            simpa using hdot
          · exact ⟨sd', by rw [hval, htake]⟩

lemma scan_files_extension :
    ∀ (node : FSNode) (dirPath excludeDirs : List String) (maxDepth : Option Nat)
      (currentDepth : Nat) (r : ScanResult),
      scanDirectory dirPath excludeDirs maxDepth currentDepth node = .ok r →
      ∀ fe ∈ r.files, fe.extension = extname fe.name.toList := by
  intro node
  induction node with
  | file stat =>
    intro dirPath excl md cd r h
    simp [scanDirectory] at h
  | other =>
    intro dirPath excl md cd r h
    simp [scanDirectory] at h
  | dirErr e =>
    intro dirPath excl md cd r h
    simp only [scanDirectory] at h
    split at h
    · injection h with h'
      subst h'
      intro fe hfe
      simp [emptyScan] at hfe
    · exact absurd h (by simp)
  | dirNil =>
    intro dirPath excl md cd r h
    injection h with h'
    subst h'
    intro fe hfe
    simp [emptyScan] at hfe
  | dirCons name child rest ihc ihr =>
    intro dirPath excl md cd r h
    rw [scanDirCons_ok] at h
    obtain ⟨r1, r2, h1, h2, h3⟩ := h
    subst h3
    intro fe hfe
    simp only [List.mem_append] at hfe
    rcases hfe with hfe | hfe
    · rcases scanEntry_ok_cases h1 with ⟨size, hc, he⟩ | he | ⟨hdir, hmem, sub, hsub, he⟩ |
        ⟨hdir, hmem, he⟩
      · subst he
        simp only [List.mem_singleton] at hfe
        subst hfe
        rfl
      · subst he
        simp [emptyScan] at hfe
      · subst he
        exact ihc (dirPath ++ [name]) excl md (cd + 1) sub hsub fe hfe
      · subst he
        simp at hfe
    · exact ihr dirPath excl md cd r2 h2 fe hfe

/-- Counterexample to C8: the recorded extension keeps the original
case (`path.extname` is stored without `toLowerCase`). -/
theorem extension_not_lowercased_cex :
    scanDirectory ["r"] [] none 0
        (FSNode.dirCons ("A.TXT") (FSNode.file (some 1)) FSNode.dirNil) =
      .ok ⟨[⟨["r", "A.TXT"], "A.TXT", 1, ['.', 'T', 'X', 'T']⟩], [], 1⟩ ∧
    (['.', 'T', 'X', 'T'] : List Char) ≠ lowerStr ['.', 'T', 'X', 'T'] := by
  constructor
  · decide
  · decide

/-- C8 (amended): the `extension` field of every recorded file is
`path.extname(name)` verbatim — the suffix of the name from its final
dot (empty when there is no extension), in the original case, not
lowercased. -/
theorem extension_verbatim :
    ∀ (node : FSNode) (dirPath excludeDirs : List String) (maxDepth : Option Nat)
      (currentDepth : Nat) (r : ScanResult),
      scanDirectory dirPath excludeDirs maxDepth currentDepth node = .ok r →
      ∀ fe ∈ r.files, fe.extension = extname fe.name.toList ∧
        (fe.extension = [] ∨
          (fe.extension.headD ' ' = '.' ∧ ∃ k, fe.extension = fe.name.toList.drop k)) := by
  intro node dirPath excl md cd r h fe hfe
  have hx := scan_files_extension node dirPath excl md cd r h fe hfe
  refine ⟨hx, ?_⟩
  rw [hx]
  exact extname_suffix fe.name.toList

/-- Witness for C8 (amended) on the uppercase-extension file. -/
theorem extension_verbatim_witness :
    (⟨["r", "A.TXT"], "A.TXT", 1, ['.', 'T', 'X', 'T']⟩ : FileEntry).extension =
      extname ("A.TXT").toList ∧
    ((⟨["r", "A.TXT"], "A.TXT", 1, ['.', 'T', 'X', 'T']⟩ : FileEntry).extension = [] ∨
      ((⟨["r", "A.TXT"], "A.TXT", 1, ['.', 'T', 'X', 'T']⟩ : FileEntry).extension.headD ' ' =
          '.' ∧
        ∃ k, (⟨["r", "A.TXT"], "A.TXT", 1, ['.', 'T', 'X', 'T']⟩ : FileEntry).extension =
          ("A.TXT").toList.drop k)) :=
  extension_verbatim
    (FSNode.dirCons ("A.TXT") (FSNode.file (some 1)) FSNode.dirNil)
    ["r"] [] none 0
    ⟨[⟨["r", "A.TXT"], "A.TXT", 1, ['.', 'T', 'X', 'T']⟩], [], 1⟩
    (by decide)
    ⟨["r", "A.TXT"], "A.TXT", 1, ['.', 'T', 'X', 'T']⟩
    (by decide)

lemma addFile_fileCount (acc : TagScanResult) (fr : FileTagReport)
    (h : acc.fileCount = acc.fileDetails.length) :
    (addFile acc fr).fileCount = (addFile acc fr).fileDetails.length := by
  unfold addFile
  by_cases hc : (!fr.todos.isEmpty || !fr.fixmes.isEmpty || !fr.hacks.isEmpty) = true
  · simp [hc, h]
  · simp [hc, h]

lemma addFile_details (acc : TagScanResult) (fr : FileTagReport)
    (h2 : ∀ fd ∈ acc.fileDetails, fd.todos ≠ [] ∨ fd.fixmes ≠ [] ∨ fd.hacks ≠ []) :
    ∀ fd ∈ (addFile acc fr).fileDetails,
      fd.todos ≠ [] ∨ fd.fixmes ≠ [] ∨ fd.hacks ≠ [] := by
  intro fd hfd
  unfold addFile at hfd
  by_cases hc : (!fr.todos.isEmpty || !fr.fixmes.isEmpty || !fr.hacks.isEmpty) = true
  · simp only [hc, if_pos, List.mem_append, List.mem_singleton] at hfd
    rcases hfd with hfd | rfl
    · exact h2 fd hfd
    · simpa [or_assoc] using hc
  · simp only [hc, if_neg, if_false] at hfd
    exact h2 fd hfd

lemma scanLoop_cons_ok {f : InFile} {rest : List InFile} {acc : TagScanResult}
    {content : List Char}
    (hext : lowerStr (extname f.name.toList) ∈ scanExtensions)
    (hcon : f.content = .ok content) :
    scanLoop (f :: rest) acc =
      scanLoop rest (addFile acc (processContent f.path f.name content)) := by
  have hext' : lowerStr (extname f.name.data) ∈ scanExtensions := hext
  simp [scanLoop, hext', hcon]

lemma scanLoop_cons_noext {f : InFile} {rest : List InFile} {acc : TagScanResult}
    (h : lowerStr (extname f.name.toList) ∉ scanExtensions) :
    scanLoop (f :: rest) acc = scanLoop rest acc := by
  have h' : lowerStr (extname f.name.data) ∉ scanExtensions := h
  simp [scanLoop, h']

lemma scanLoop_cons_err {f : InFile} {rest : List InFile} {acc : TagScanResult}
    (h : f.content = .error ()) :
    scanLoop (f :: rest) acc = scanLoop rest acc := by
  by_cases hext : lowerStr (extname f.name.toList) ∈ scanExtensions
  · have hext' : lowerStr (extname f.name.data) ∈ scanExtensions := hext
    simp [scanLoop, hext', h]
  · exact scanLoop_cons_noext hext

lemma scanLoop_invariant :
    ∀ (files : List InFile) (acc : TagScanResult),
      acc.fileCount = acc.fileDetails.length →
      (∀ fd ∈ acc.fileDetails, fd.todos ≠ [] ∨ fd.fixmes ≠ [] ∨ fd.hacks ≠ []) →
      (scanLoop files acc).fileCount = (scanLoop files acc).fileDetails.length ∧
      ∀ fd ∈ (scanLoop files acc).fileDetails,
        fd.todos ≠ [] ∨ fd.fixmes ≠ [] ∨ fd.hacks ≠ [] := by
  intro files
  induction files with
  | nil =>
    intro acc h1 h2
    exact ⟨h1, h2⟩
  | cons f rest ih =>
    intro acc h1 h2
    by_cases hext : lowerStr (extname f.name.toList) ∈ scanExtensions
    · cases hcon : f.content with
      | error u =>
        cases u
        rw [scanLoop_cons_err hcon]
        exact ih acc h1 h2
      | ok content =>
        rw [scanLoop_cons_ok hext hcon]
        exact ih _ (addFile_fileCount acc _ h1) (addFile_details acc _ h2)
    · rw [scanLoop_cons_noext hext]
      exact ih acc h1 h2

/-- C1: `totalCount` is the sum of the three aggregate sequence
lengths, `fileCount` is the length of `fileDetails`, and every
`fileDetails` entry has at least one nonempty per-kind sequence. -/
theorem tagScan_invariants :
    ∀ files : List InFile,
      (scanForTodos files).totalCount =
          (scanForTodos files).todos.length + (scanForTodos files).fixmes.length +
            (scanForTodos files).hacks.length ∧
      (scanForTodos files).fileCount = (scanForTodos files).fileDetails.length ∧
      ∀ fd ∈ (scanForTodos files).fileDetails,
        fd.todos ≠ [] ∨ fd.fixmes ≠ [] ∨ fd.hacks ≠ [] := by
  intro files
  have hinv := scanLoop_invariant files emptyTagResult rfl
    (by intro fd hfd; simp [emptyTagResult] at hfd)
  exact ⟨rfl, hinv.1, hinv.2⟩

/-- Witness for C1 on a one-file input. -/
theorem tagScan_invariants_witness :
    (⟨["a.js"], "a.js", [['x']], [], []⟩ : FileTagReport).todos ≠ [] ∨
    (⟨["a.js"], "a.js", [['x']], [], []⟩ : FileTagReport).fixmes ≠ [] ∨
    (⟨["a.js"], "a.js", [['x']], [], []⟩ : FileTagReport).hacks ≠ [] :=
  (tagScan_invariants [⟨["a.js"], "a.js", .ok (("// TODO: x").toList)⟩]).2.2
    ⟨["a.js"], "a.js", [['x']], [], []⟩ (by decide)

lemma scanLoop_append :
    ∀ (xs ys : List InFile) (acc : TagScanResult),
      scanLoop (xs ++ ys) acc = scanLoop ys (scanLoop xs acc) := by
  intro xs
  induction xs with
  | nil =>
    intro ys acc
    rfl
  | cons f xs ih =>
    intro ys acc
    show scanLoop (f :: (xs ++ ys)) acc = scanLoop ys (scanLoop (f :: xs) acc)
    by_cases hext : lowerStr (extname f.name.toList) ∈ scanExtensions
    · cases hcon : f.content with
      | error u =>
        cases u
        rw [scanLoop_cons_err hcon, scanLoop_cons_err hcon, ih]
      | ok content =>
        rw [scanLoop_cons_ok hext hcon, scanLoop_cons_ok hext hcon, ih]
    · rw [scanLoop_cons_noext hext, scanLoop_cons_noext hext, ih]

/-- C9: a file whose lowercased `extname` is not in the allowlist, or
whose read fails, contributes nothing at all: the scan of any file
list containing it equals the scan with it removed (in particular
such a file is never opened — its content is irrelevant). -/
theorem tagger_skips_files :
    ∀ (xs ys : List InFile) (f : InFile),
      lowerStr (extname f.name.toList) ∉ scanExtensions ∨ f.content = .error () →
      scanForTodos (xs ++ f :: ys) = scanForTodos (xs ++ ys) := by
  intro xs ys f h
  unfold scanForTodos
  have hloop : scanLoop (xs ++ f :: ys) emptyTagResult =
      scanLoop (xs ++ ys) emptyTagResult := by
    rw [scanLoop_append, scanLoop_append]
    rcases h with h | h
    · exact scanLoop_cons_noext h
    · exact scanLoop_cons_err h
  rw [hloop]

/-- Witness for C9: a `.bin` file containing a tag comment is never
opened and contributes nothing. -/
theorem tagger_skips_files_witness :
    (lowerStr (extname (("x.bin" : String)).toList) ∉ scanExtensions ∨
      (⟨["x.bin"], "x.bin", .ok (("// TODO: x").toList)⟩ : InFile).content = .error ()) ∧
    scanForTodos ([] ++ ⟨["x.bin"], "x.bin", .ok (("// TODO: x").toList)⟩ :: []) =
      scanForTodos ([] ++ []) :=
  ⟨Or.inl (by decide),
    tagger_skips_files [] [] ⟨["x.bin"], "x.bin", .ok (("// TODO: x").toList)⟩
      (Or.inl (by decide))⟩

lemma dotPlus_lt : Shrinks dotPlus := by
  intro l cap r h
  unfold dotPlus at h
  split at h
  · exact absurd h (by simp)
  · rename_i c cs heq
    injection h with h'
    obtain ⟨h1, h2⟩ := Prod.mk.inj h'
    subst h2
    have hlen : (l.takeWhile dotChar).length + (l.dropWhile dotChar).length = l.length := by
      rw [← List.length_append, List.takeWhile_append_dropWhile]
    rw [heq] at hlen
    simp at hlen
    omega

lemma wsStar_lt {next : List Char → Option (List Char × List Char)}
    (hn : Shrinks next) : Shrinks (wsStar next) := by
  intro l
  induction l with
  | nil =>
    intro cap r h
    exact hn [] cap r h
  | cons c cs ih =>
    intro cap r h
    simp only [wsStar] at h
    split at h
    · split at h
      · rename_i v hv
        injection h with h'
        subst h'
        exact Nat.lt_succ_of_lt (ih cap r hv)
      · exact hn _ cap r h
    · exact hn _ cap r h

lemma optChar_lt {ch : Char} {next : List Char → Option (List Char × List Char)}
    (hn : Shrinks next) : Shrinks (optChar ch next) := by
  intro l
  cases l with
  | nil =>
    intro cap r h
    exact hn [] cap r h
  | cons c cs =>
    intro cap r h
    simp only [optChar] at h
    split at h
    · split at h
      · rename_i v hv
        injection h with h'
        subst h'
        exact Nat.lt_succ_of_lt (hn cs cap r hv)
      · exact hn _ cap r h
    · exact hn _ cap r h

lemma litCI_lt {ch : Char} {next : List Char → Option (List Char × List Char)}
    (hn : Shrinks next) : Shrinks (litCI ch next) := by
  intro l cap r h
  cases l with
  | nil => simp [litCI] at h
  | cons c cs =>
    simp only [litCI] at h
    split at h
    · exact Nat.lt_succ_of_lt (hn cs cap r h)
    · exact absurd h (by simp)

lemma litSeq_lt :
    ∀ (s : List Char) {next : List Char → Option (List Char × List Char)},
      Shrinks next → Shrinks (litSeq s next) := by
  intro s
  induction s with
  | nil =>
    intro next hn
    exact hn
  | cons ch s ih =>
    intro next hn
    exact litCI_lt (ih hn)

lemma closeStar_lt : ∀ l r, closeStar l = some r → r.length < l.length := by
  intro l r h
  unfold closeStar at h
  split at h
  · rename_i r0 heq
    injection h with h'
    subst h'
    have hlen : (l.takeWhile wsChar).length + (l.dropWhile wsChar).length = l.length := by
      rw [← List.length_append, List.takeWhile_append_dropWhile]
    rw [heq] at hlen
    simp at hlen
    omega
  · exact absurd h (by simp)

lemma lazyCapAux_lt :
    ∀ (l acc cap r : List Char), lazyCapAux acc l = some (cap, r) → r.length < l.length := by
  intro l
  induction l with
  | nil =>
    intro acc cap r h
    simp [lazyCapAux] at h
  | cons c cs ih =>
    intro acc cap r h
    simp only [lazyCapAux] at h
    split at h
    · split at h
      · rename_i rest hrest
        injection h with h'
        obtain ⟨h1, h2⟩ := Prod.mk.inj h'
        subst h2
        exact Nat.lt_succ_of_lt (closeStar_lt cs rest hrest)
      · exact Nat.lt_succ_of_lt (ih (c :: acc) cap r h)
    · exact absurd h (by simp)

lemma lazyCap_lt : Shrinks (lazyCapAux []) :=
  fun l cap r h => lazyCapAux_lt l [] cap r h

lemma altLine_lt (tag : List Char) : Shrinks (altLine tag) :=
  litCI_lt (litCI_lt (wsStar_lt (litSeq_lt tag (optChar_lt (wsStar_lt dotPlus_lt)))))

lemma altBlock_lt (tag : List Char) : Shrinks (altBlock tag) :=
  litCI_lt (litCI_lt (wsStar_lt (litSeq_lt tag (optChar_lt (wsStar_lt lazyCap_lt)))))

lemma altHash_lt (tag : List Char) : Shrinks (altHash tag) :=
  litCI_lt (wsStar_lt (litSeq_lt tag (optChar_lt (wsStar_lt dotPlus_lt))))

lemma matchAt_lt {tag l : List Char} {caps : Caps} {rest : List Char}
    (h : matchAt tag l = some (caps, rest)) : rest.length < l.length := by
  unfold matchAt at h
  split at h
  · rename_i cap r0 heq
    injection h with h'
    obtain ⟨h1, h2⟩ := Prod.mk.inj h'
    exact h2 ▸ altLine_lt tag l cap r0 heq
  · split at h
    · rename_i cap r0 heq
      injection h with h'
      obtain ⟨h1, h2⟩ := Prod.mk.inj h'
      exact h2 ▸ altBlock_lt tag l cap r0 heq
    · split at h
      · rename_i cap r0 heq
        injection h with h'
        obtain ⟨h1, h2⟩ := Prod.mk.inj h'
        exact h2 ▸ altHash_lt tag l cap r0 heq
      · exact absurd h (by simp)

lemma jsMatchAllPosF_bounds (tag : List Char) :
    ∀ (f : Nat) (l : List Char) (pos : Nat) (x : Nat × Nat × Caps),
      l.length ≤ f → x ∈ jsMatchAllPosF tag f pos l →
      pos ≤ x.1 ∧ 1 ≤ x.2.1 ∧ x.1 + x.2.1 ≤ pos + l.length := by
  intro f
  induction f with
  | zero =>
    intro l pos x hf hx
    simp [jsMatchAllPosF] at hx
  | succ f ih =>
    intro l pos x hf hx
    cases hm : matchAt tag l with
    | some v =>
      obtain ⟨caps, rest⟩ := v
      have hrest := matchAt_lt hm
      simp only [jsMatchAllPosF, hm, List.mem_cons] at hx
      rcases hx with rfl | hx
      · refine ⟨le_rfl, by dsimp only; omega, by dsimp only; omega⟩
      · have hb := ih rest (pos + (l.length - rest.length)) x (by omega) hx
        exact ⟨by omega, hb.2.1, by omega⟩
    | none =>
      cases l with
      | nil => simp [jsMatchAllPosF, hm] at hx
      | cons c cs =>
        simp only [jsMatchAllPosF, hm] at hx
        have hlen : cs.length ≤ f := by
          simp at hf
          omega
        have hb := ih cs (pos + 1) x hlen hx
        refine ⟨by omega, hb.2.1, ?_⟩
        have := hb.2.2
        simp
        omega

lemma jsMatchAllPosF_pairwise (tag : List Char) :
    ∀ (f : Nat) (l : List Char) (pos : Nat), l.length ≤ f →
      List.Pairwise (fun a b : Nat × Nat × Caps => a.1 + a.2.1 ≤ b.1)
        (jsMatchAllPosF tag f pos l) := by
  intro f
  induction f with
  | zero =>
    intro l pos hf
    simp [jsMatchAllPosF]
  | succ f ih =>
    intro l pos hf
    cases hm : matchAt tag l with
    | some v =>
      obtain ⟨caps, rest⟩ := v
      have hrest := matchAt_lt hm
      simp only [jsMatchAllPosF, hm]
      refine List.Pairwise.cons ?_ (ih rest _ (by omega))
      intro x hx
      have hb := jsMatchAllPosF_bounds tag f rest (pos + (l.length - rest.length)) x
        (by omega) hx
      simp only
      omega
    | none =>
      cases l with
      | nil => simp [jsMatchAllPosF, hm]
      | cons c cs =>
        simp only [jsMatchAllPosF, hm]
        have hlen : cs.length ≤ f := by
          simp at hf
          omega
        exact ih cs (pos + 1) hlen

lemma jsMatchAllF_eq_posF (tag : List Char) :
    ∀ (f : Nat) (l : List Char) (pos : Nat),
      jsMatchAllF tag f l = (jsMatchAllPosF tag f pos l).map (fun m => m.2.2) := by
  intro f
  induction f with
  | zero =>
    intro l pos
    rfl
  | succ f ih =>
    intro l pos
    cases hm : matchAt tag l with
    | some v =>
      obtain ⟨caps, rest⟩ := v
      simp only [jsMatchAllF, jsMatchAllPosF, hm, List.map_cons]
      rw [ih]
    | none =>
      cases l with
      | nil => simp [jsMatchAllF, jsMatchAllPosF, hm]
      | cons c cs =>
        simp only [jsMatchAllF, jsMatchAllPosF, hm]
        exact ih cs (pos + 1)

lemma litSeq_consumed :
    ∀ (s : List Char) (next : List Char → Option (List Char × List Char)) (l : List Char)
      (v : List Char × List Char),
      litSeq s next l = some v →
      ∃ p r, l = p ++ r ∧ p.map Char.toLower = s.map Char.toLower ∧ next r = some v := by
  intro s
  induction s with
  | nil =>
    intro next l v h
    exact ⟨[], l, rfl, rfl, h⟩
  | cons ch s ih =>
    intro next l v h
    cases l with
    | nil => simp [litSeq, litCI] at h
    | cons c cs =>
      simp only [litSeq, litCI] at h
      split at h
      · rename_i hlow
        obtain ⟨p, r, rfl, hmap, hnext⟩ := ih next cs v h
        exact ⟨c :: p, r, rfl, by simp [hmap, hlow], hnext⟩
      · exact absurd h (by simp)

/-- C4: the per-kind comment lists are exactly the global-scan matches
mapped through "first nonempty capture, trimmed"; the global scan's
matches are nonempty, lie inside the content, and are pairwise
non-overlapping in scan order; and the tag keyword is matched
case-insensitively (the consumed literal prefix agrees with the tag up
to `toLower`). -/
theorem tagger_matching_semantics :
    (∀ (tag l : List Char),
      jsMatchAll tag l = (jsMatchAllPos tag l).map (fun m => m.2.2)) ∧
    (∀ (tag l : List Char),
      List.Pairwise (fun a b : Nat × Nat × Caps => a.1 + a.2.1 ≤ b.1)
        (jsMatchAllPos tag l)) ∧
    (∀ (tag l : List Char) (m : Nat × Nat × Caps), m ∈ jsMatchAllPos tag l →
      1 ≤ m.2.1 ∧ m.1 + m.2.1 ≤ l.length) ∧
    (∀ (s : List Char) (next : List Char → Option (List Char × List Char))
      (l : List Char) (v : List Char × List Char),
      litSeq s next l = some v →
      ∃ p r, l = p ++ r ∧ p.map Char.toLower = s.map Char.toLower ∧ next r = some v) ∧
    (∀ (path : List String) (name : String) (content : List Char),
      lowerStr (extname name.toList) ∈ scanExtensions →
      (scanForTodos [⟨path, name, .ok content⟩]).todos =
          (jsMatchAll tagTODO content).map (fun m => ⟨name, trimJS (jsOrCaps m)⟩) ∧
      (scanForTodos [⟨path, name, .ok content⟩]).fixmes =
          (jsMatchAll tagFIXME content).map (fun m => ⟨name, trimJS (jsOrCaps m)⟩) ∧
      (scanForTodos [⟨path, name, .ok content⟩]).hacks =
          (jsMatchAll tagHACK content).map (fun m => ⟨name, trimJS (jsOrCaps m)⟩)) := by
  refine ⟨?_, ?_, ?_, litSeq_consumed, ?_⟩
  · intro tag l
    exact jsMatchAllF_eq_posF tag l.length l 0
  · intro tag l
    exact jsMatchAllPosF_pairwise tag l.length l 0 le_rfl
  · intro tag l m hm
    have hb := jsMatchAllPosF_bounds tag l.length l 0 m le_rfl hm
    exact ⟨hb.2.1, by simpa using hb.2.2⟩
  · intro path name content hext
    have h1 : scanLoop [(⟨path, name, .ok content⟩ : InFile)] emptyTagResult =
        addFile emptyTagResult (processContent path name content) :=
      @scanLoop_cons_ok ⟨path, name, Except.ok content⟩ [] emptyTagResult content hext rfl
    refine ⟨?_, ?_, ?_⟩ <;>
      · unfold scanForTodos
        rw [h1]
        simp [addFile, emptyTagResult, processContent, tagComments, List.map_map]

/-- Witness for C4 on a concrete line comment. -/
theorem tagger_matching_witness :
    lowerStr (extname (("a.js" : String)).toList) ∈ scanExtensions ∧
    (scanForTodos [⟨["a.js"], "a.js", .ok (("// TODO: hi").toList)⟩]).todos =
      (jsMatchAll tagTODO (("// TODO: hi").toList)).map
        (fun m => ⟨"a.js", trimJS (jsOrCaps m)⟩) :=
  ⟨by decide,
    (tagger_matching_semantics.2.2.2.2 ["a.js"] ("a.js") (("// TODO: hi").toList)
      (by decide)).1⟩

lemma insertByCount_perm (x : TopEntry) : ∀ l, (insertByCount x l).Perm (x :: l) := by
  intro l
  induction l with
  | nil => exact List.Perm.refl _
  | cons y ys ih =>
    simp only [insertByCount]
    split
    · exact List.Perm.refl _
    · exact (ih.cons y).trans (List.Perm.swap x y ys)

lemma sortByCountDesc_perm : ∀ l, (sortByCountDesc l).Perm l := by
  intro l
  induction l with
  | nil => exact List.Perm.refl _
  | cons x xs ih =>
    exact (insertByCount_perm x (sortByCountDesc xs)).trans (ih.cons x)

lemma insertByCount_sorted {x : TopEntry} :
    ∀ {l : List TopEntry}, List.Pairwise (fun a b => b.count ≤ a.count) l →
      List.Pairwise (fun a b => b.count ≤ a.count) (insertByCount x l) := by
  intro l
  induction l with
  | nil =>
    intro _
    simp [insertByCount]
  | cons y ys ih =>
    intro h
    rcases List.pairwise_cons.1 h with ⟨hy, hys⟩
    simp only [insertByCount]
    split
    · rename_i hc
      refine List.Pairwise.cons ?_ h
      intro z hz
      rcases List.mem_cons.1 hz with rfl | hz'
      · exact hc
      · exact le_trans (hy z hz') hc
    · rename_i hc
      refine List.Pairwise.cons ?_ (ih hys)
      intro z hz
      have hz' := (insertByCount_perm x ys).mem_iff.1 hz
      rcases List.mem_cons.1 hz' with rfl | hz''
      · omega
      · exact hy z hz''

lemma sortByCountDesc_sorted :
    ∀ l, List.Pairwise (fun a b : TopEntry => b.count ≤ a.count) (sortByCountDesc l) := by
  intro l
  induction l with
  | nil => simp [sortByCountDesc]
  | cons x xs ih => exact insertByCount_sorted ih

lemma upsert_mem :
    ∀ (m : List (String × TopEntry)) (k : String) (v : TopEntry) (p : String × TopEntry),
      p ∈ upsert k v m → p = (k, v) ∨ p ∈ m := by
  intro m
  induction m with
  | nil =>
    intro k v p hp
    simp only [upsert, List.mem_singleton] at hp
    exact Or.inl hp
  | cons q m ih =>
    intro k v p hp
    obtain ⟨k', v'⟩ := q
    simp only [upsert] at hp
    split at hp
    · rcases List.mem_cons.1 hp with rfl | hp'
      · exact Or.inl rfl
      · exact Or.inr (List.mem_cons.2 (Or.inr hp'))
    · rcases List.mem_cons.1 hp with rfl | hp'
      · exact Or.inr (List.mem_cons.2 (Or.inl rfl))
      · rcases ih k v p hp' with h | h
        · exact Or.inl h
        · exact Or.inr (List.mem_cons.2 (Or.inr h))

lemma upsert_keys :
    ∀ (m : List (String × TopEntry)) (k : String) (v : TopEntry),
      (upsert k v m).map Prod.fst =
        if k ∈ m.map Prod.fst then m.map Prod.fst else m.map Prod.fst ++ [k] := by
  intro m
  induction m with
  | nil =>
    intro k v
    simp [upsert]
  | cons q m ih =>
    intro k v
    obtain ⟨k', v'⟩ := q
    simp only [upsert]
    split
    · rename_i heq
      subst heq
      simp
    · rename_i hne
      simp only [List.map_cons]
      rw [ih k v]
      have hkk : ¬(k = k') := fun h => hne h.symm
      by_cases hk : k ∈ m.map Prod.fst
      · simp [hk, hkk]
      · simp [hk, hkk]

lemma upsert_keys_nodup {m : List (String × TopEntry)} {k : String} {v : TopEntry}
    (h : (m.map Prod.fst).Nodup) : ((upsert k v m).map Prod.fst).Nodup := by
  rw [upsert_keys]
  split
  · exact h
  · rename_i hk
    simp [List.nodup_append, h, hk]

lemma upsert_name_key {m : List (String × TopEntry)} {k : String} {v : TopEntry}
    (h : ∀ p ∈ m, (p : String × TopEntry).2.name = p.1) (hv : v.name = k) :
    ∀ p ∈ upsert k v m, p.2.name = p.1 := by
  intro p hp
  rcases upsert_mem m k v p hp with rfl | hp'
  · exact hv
  · exact h p hp'

lemma fcFold_mem :
    ∀ (fds : List FileTagReport) (acc : List (String × TopEntry)) (p : String × TopEntry),
      p ∈ fds.foldl (fun m fd => upsert fd.name (mkTopEntry fd) m) acc →
      p ∈ acc ∨ ∃ fd ∈ fds, p = (fd.name, mkTopEntry fd) := by
  intro fds
  induction fds with
  | nil =>
    intro acc p hp
    exact Or.inl hp
  | cons fd fds ih =>
    intro acc p hp
    rcases ih (upsert fd.name (mkTopEntry fd) acc) p hp with h | ⟨fd', hfd', rfl⟩
    · rcases upsert_mem acc fd.name (mkTopEntry fd) p h with rfl | h'
      · exact Or.inr ⟨fd, List.mem_cons_self _ _, rfl⟩
      · exact Or.inl h'
    · exact Or.inr ⟨fd', List.mem_cons.2 (Or.inr hfd'), rfl⟩

lemma fcFold_keys_nodup :
    ∀ (fds : List FileTagReport) (acc : List (String × TopEntry)),
      ((acc.map Prod.fst).Nodup) →
      (((fds.foldl (fun m fd => upsert fd.name (mkTopEntry fd) m) acc).map Prod.fst).Nodup) := by
  intro fds
  induction fds with
  | nil =>
    intro acc h
    exact h
  | cons fd fds ih =>
    intro acc h
    exact ih _ (upsert_keys_nodup h)

lemma fcFold_name_key :
    ∀ (fds : List FileTagReport) (acc : List (String × TopEntry)),
      (∀ p ∈ acc, (p : String × TopEntry).2.name = p.1) →
      ∀ p ∈ fds.foldl (fun m fd => upsert fd.name (mkTopEntry fd) m) acc,
        p.2.name = p.1 := by
  intro fds
  induction fds with
  | nil =>
    intro acc h
    exact h
  | cons fd fds ih =>
    intro acc h
    exact ih _ (upsert_name_key h rfl)

lemma lastWithName_append :
    ∀ (fds : List FileTagReport) (x : FileTagReport) (n : String),
      lastWithName n (fds ++ [x]) =
        if x.name = n then some x else lastWithName n fds := by
  intro fds
  induction fds with
  | nil =>
    intro x n
    by_cases hx : x.name = n <;> simp [lastWithName, hx]
  | cons fd fds ih =>
    intro x n
    have h1 : lastWithName n ((fd :: fds) ++ [x]) =
        match lastWithName n (fds ++ [x]) with
        | some fd' => some fd'
        | none => if fd.name = n then some fd else none := rfl
    rw [h1, ih x n]
    by_cases hx : x.name = n
    · rw [if_pos hx, if_pos hx]
    · rw [if_neg hx, if_neg hx]
      rfl

lemma lastWithName_mem :
    ∀ (fds : List FileTagReport) (n : String) (fd : FileTagReport),
      lastWithName n fds = some fd → fd ∈ fds ∧ fd.name = n := by
  intro fds
  induction fds with
  | nil =>
    intro n fd h
    simp [lastWithName] at h
  | cons fd0 fds ih =>
    intro n fd h
    have h1 : (match lastWithName n fds with
        | some fd' => some fd'
        | none => if fd0.name = n then some fd0 else none) = some fd := h
    cases hrest : lastWithName n fds with
    | some fd' =>
      rw [hrest] at h1
      have h2 : fd' = fd := by injection h1
      obtain ⟨hm, hn⟩ := ih n fd' hrest
      rw [← h2]
      exact ⟨List.mem_cons.2 (Or.inr hm), hn⟩
    | none =>
      rw [hrest] at h1
      by_cases hn : fd0.name = n
      · rw [if_pos hn] at h1
        have h2 : fd0 = fd := by injection h1
        rw [← h2]
        exact ⟨List.mem_cons_self _ _, hn⟩
      · rw [if_neg hn] at h1
        exact absurd h1 (by simp)

lemma upsert_filter_self :
    ∀ (m : List (String × TopEntry)) (k : String) (v : TopEntry),
      (upsert k v m).filter (fun p => !(p.1 == k)) =
        m.filter (fun p => !(p.1 == k)) := by
  intro m
  induction m with
  | nil =>
    intro k v
    simp [upsert]
  | cons q t ih =>
    intro k v
    obtain ⟨k1, v1⟩ := q
    simp only [upsert]
    split
    · rename_i heq
      subst heq
      simp
    · rename_i hne
      have hb : (!(k1 == k)) = true := by simp [hne]
      simp [List.filter_cons, hb, ih k v]

lemma upsert_filter_ne :
    ∀ (m : List (String × TopEntry)) (k d : String) (v : TopEntry), k ≠ d →
      (upsert k v m).filter (fun p => !(p.1 == d)) =
        upsert k v (m.filter (fun p => !(p.1 == d))) := by
  intro m
  induction m with
  | nil =>
    intro k d v hkd
    simp [upsert, hkd]
  | cons q t ih =>
    intro k d v hkd
    obtain ⟨k1, v1⟩ := q
    simp only [upsert]
    split
    · rename_i heq
      subst heq
      have hb : (!(k1 == d)) = true := by simp [hkd]
      simp [List.filter_cons, hb, upsert]
    · rename_i hne
      by_cases hd : k1 = d
      · subst hd
        simp [List.filter_cons, ih k k1 v hkd]
      · have hb : (!(k1 == d)) = true := by simp [hd]
        simp [List.filter_cons, hb, upsert, hne, ih k d v hkd]

lemma keyedPairs_append :
    ∀ (fds : List FileTagReport) (x : FileTagReport),
      keyedPairs (fds ++ [x]) = upsert x.name (mkTopEntry x) (keyedPairs fds) := by
  intro fds
  induction fds with
  | nil =>
    intro x
    simp [keyedPairs, lastWithName, upsert]
  | cons fd fds ih =>
    intro x
    have h1 : keyedPairs ((fd :: fds) ++ [x]) =
        (fd.name,
          match lastWithName fd.name (fds ++ [x]) with
          | some fd' => mkTopEntry fd'
          | none => mkTopEntry fd) ::
        (keyedPairs (fds ++ [x])).filter (fun p => !(p.1 == fd.name)) := rfl
    rw [h1, ih, lastWithName_append]
    by_cases hx : x.name = fd.name
    · rw [if_pos hx, hx, upsert_filter_self]
      simp [upsert]
    · rw [if_neg hx, upsert_filter_ne _ _ _ _ hx]
      have hne : ¬(fd.name = x.name) := fun h => hx h.symm
      simp [upsert, hne]

lemma fcFold_eq_keyedPairs :
    ∀ fds : List FileTagReport,
      fds.foldl (fun m fd => upsert fd.name (mkTopEntry fd) m) [] = keyedPairs fds := by
  intro fds
  induction fds using List.reverseRecOn with
  | nil => rfl
  | append_singleton l x ih =>
    rw [List.foldl_append]
    simp only [List.foldl_cons, List.foldl_nil]
    rw [ih, keyedPairs_append]

lemma keyedPairs_value :
    ∀ (fds : List FileTagReport) (p : String × TopEntry), p ∈ keyedPairs fds →
      ∃ fd, lastWithName p.1 fds = some fd ∧ p.2 = mkTopEntry fd := by
  intro fds
  induction fds with
  | nil =>
    intro p hp
    simp [keyedPairs] at hp
  | cons fd fds ih =>
    intro p hp
    simp only [keyedPairs, List.mem_cons] at hp
    rcases hp with rfl | hp
    · cases hrest : lastWithName fd.name fds with
      | some fd' =>
        exact ⟨fd', by simp [lastWithName, hrest], by simp [hrest]⟩
      | none =>
        exact ⟨fd, by simp [lastWithName, hrest], by simp [hrest]⟩
    · have hp' := List.mem_filter.1 hp
      obtain ⟨fd', h1, h2⟩ := ih p hp'.1
      exact ⟨fd', by simp [lastWithName, h1], h2⟩

lemma insertByCount_filter :
    ∀ (c : Nat) (x : TopEntry) (l : List TopEntry),
      (insertByCount x l).filter (fun e => e.count == c) =
        if x.count = c then x :: l.filter (fun e => e.count == c)
        else l.filter (fun e => e.count == c) := by
  intro c x l
  induction l with
  | nil => by_cases hx : x.count = c <;> simp [insertByCount, hx]
  | cons y ys ih =>
    simp only [insertByCount]
    split
    · rename_i hc
      by_cases hx : x.count = c <;> simp [List.filter_cons, hx]
    · rename_i hc
      by_cases hy : y.count = c
      · have hx : ¬(x.count = c) := by omega
        simp [List.filter_cons, hy, hx, ih]
      · by_cases hx : x.count = c
        · simp [List.filter_cons, hy, hx, ih]
        · simp [List.filter_cons, hy, hx, ih]

lemma sortByCountDesc_stable :
    ∀ (l : List TopEntry) (c : Nat),
      (sortByCountDesc l).filter (fun e => e.count == c) =
        l.filter (fun e => e.count == c) := by
  intro l
  induction l with
  | nil =>
    intro c
    rfl
  | cons x xs ih =>
    intro c
    show (insertByCount x (sortByCountDesc xs)).filter _ = _
    rw [insertByCount_filter]
    by_cases hx : x.count = c
    · rw [if_pos hx, ih]
      simp [List.filter_cons, hx]
    · rw [if_neg hx, ih]
      simp [List.filter_cons, hx]

/-- Counterexample to C5: two `fileDetails` entries sharing a base
name collapse into a single object key, so with `limit = 5` only one
entry is returned even though two files are present. -/
theorem topFiles_name_collision_cex :
    ((scanForTodos [⟨["d1", "a.js"], "a.js", .ok (("// TODO: one").toList)⟩,
        ⟨["d2", "a.js"], "a.js", .ok (("// TODO: x\n// TODO: y").toList)⟩]).fileDetails).length
        = 2 ∧
    (getFilesWithMostTodos
        (scanForTodos [⟨["d1", "a.js"], "a.js", .ok (("// TODO: one").toList)⟩,
          ⟨["d2", "a.js"], "a.js", .ok (("// TODO: x\n// TODO: y").toList)⟩]) 5).length = 1 := by
  constructor
  · decide
  · decide

/-- C5 (amended): `topFilesByTagCount` keys files by base name (the
last `fileDetails` entry for a name wins); it returns at most `limit`
entries, sorted by descending count (stable on first-appearance order
of names), with pairwise-distinct names, and every returned entry is
the projection of some `fileDetails` entry.  Formally: the output is
exactly the first `limit` entries of the stable descending sort of
`keyedEntries` (one entry per distinct name, in first-appearance
order, valued by the last `fileDetails` entry of that name); the sort
preserves every equal-count class verbatim (stability, so equal-count
entries stay in first-appearance order); and each returned entry is
the projection of the LAST `fileDetails` entry carrying its name. -/
theorem topFiles_amended :
    ∀ (r : TagScanResult) (limit : Nat),
      getFilesWithMostTodos r limit =
        (sortByCountDesc (keyedEntries r.fileDetails)).take limit ∧
      (∀ c : Nat, (sortByCountDesc (keyedEntries r.fileDetails)).filter
          (fun e => e.count == c) =
        (keyedEntries r.fileDetails).filter (fun e => e.count == c)) ∧
      (getFilesWithMostTodos r limit).length ≤ limit ∧
      List.Pairwise (fun a b : TopEntry => b.count ≤ a.count)
        (getFilesWithMostTodos r limit) ∧
      ((getFilesWithMostTodos r limit).map TopEntry.name).Nodup ∧
      ∀ e ∈ getFilesWithMostTodos r limit,
        ∃ fd, lastWithName e.name r.fileDetails = some fd ∧ fd ∈ r.fileDetails ∧
          e = mkTopEntry fd := by
  intro r limit
  have hdef : getFilesWithMostTodos r limit =
      (sortByCountDesc ((r.fileDetails.foldl
        (fun m fd => upsert fd.name (mkTopEntry fd) m) []).map Prod.snd)).take limit := rfl
  have heq : getFilesWithMostTodos r limit =
      (sortByCountDesc (keyedEntries r.fileDetails)).take limit := by
    rw [hdef, fcFold_eq_keyedPairs]
    rfl
  refine ⟨heq, fun c => sortByCountDesc_stable _ c, ?_, ?_, ?_, ?_⟩
  · rw [hdef]
    exact List.length_take_le _ _
  · rw [hdef]
    exact List.Pairwise.sublist (List.take_sublist _ _) (sortByCountDesc_sorted _)
  · rw [hdef]
    have hkeys := fcFold_name_key r.fileDetails [] (by intro p hp; simp at hp)
    have hnodup := fcFold_keys_nodup r.fileDetails [] (by simp)
    have hvals : ((r.fileDetails.foldl
        (fun m fd => upsert fd.name (mkTopEntry fd) m) []).map Prod.snd).map TopEntry.name =
        (r.fileDetails.foldl (fun m fd => upsert fd.name (mkTopEntry fd) m) []).map
          Prod.fst := by
      rw [List.map_map]
      exact List.map_congr_left hkeys
    have hperm := (sortByCountDesc_perm ((r.fileDetails.foldl
        (fun m fd => upsert fd.name (mkTopEntry fd) m) []).map Prod.snd)).map TopEntry.name
    have hnd : ((sortByCountDesc ((r.fileDetails.foldl
        (fun m fd => upsert fd.name (mkTopEntry fd) m) []).map Prod.snd)).map
          TopEntry.name).Nodup :=
      hperm.nodup_iff.2 (by rw [hvals]; exact hnodup)
    rw [List.map_take]
    exact List.Nodup.sublist (List.take_sublist _ _) hnd
  · intro e he
    rw [heq] at he
    have he' := List.take_subset _ _ he
    have he'' := ((sortByCountDesc_perm _).mem_iff).1 he'
    obtain ⟨p, hp, rfl⟩ := List.mem_map.1 he''
    obtain ⟨fd, hlast, hval⟩ := keyedPairs_value r.fileDetails p hp
    obtain ⟨hmem, hname⟩ := lastWithName_mem r.fileDetails p.1 fd hlast
    refine ⟨fd, ?_, hmem, hval⟩
    rw [hval]
    show lastWithName fd.name r.fileDetails = some fd
    rw [hname]
    exact hlast

/-- Witness for C5 (amended): the surviving entry for the duplicated
name is the projection of the last `fileDetails` entry carrying it. -/
theorem topFiles_amended_witness :
    ∃ fd, lastWithName ("a.js")
        (scanForTodos [⟨["d1", "a.js"], "a.js", .ok (("// TODO: one").toList)⟩,
          ⟨["d2", "a.js"], "a.js", .ok (("// TODO: x\n// TODO: y").toList)⟩]).fileDetails =
        some fd ∧
      fd ∈ (scanForTodos [⟨["d1", "a.js"], "a.js", .ok (("// TODO: one").toList)⟩,
        ⟨["d2", "a.js"], "a.js", .ok (("// TODO: x\n// TODO: y").toList)⟩]).fileDetails ∧
      (⟨"a.js", ["d2", "a.js"], 2, 2, 0, 0⟩ : TopEntry) = mkTopEntry fd :=
  (topFiles_amended
      (scanForTodos [⟨["d1", "a.js"], "a.js", .ok (("// TODO: one").toList)⟩,
        ⟨["d2", "a.js"], "a.js", .ok (("// TODO: x\n// TODO: y").toList)⟩]) 5).2.2.2.2.2
    ⟨"a.js", ["d2", "a.js"], 2, 2, 0, 0⟩ (by decide)

end DevInsight
